import Mathlib

/-!
Verification of the style-extraction pipeline in `docx2python/text_runs.py`.

The Python module reads formatting properties off three kinds of XML elements
(runs, paragraphs, table cells), selects an allow-listed subset into an ordered
list of `(style-name, rendered-attributes)` pairs, and serializes that list into
matching open/close HTML-like tag strings.

The embedding below models:
  * XML elements (`Elem`) as a tag, an attribute association list, and children;
  * Python dicts as association lists built with insert-or-overwrite
    (`pyDictInsert`), whose `sorted(d.items())` is a stable insertion sort by
    key (`sortItems`) — dict keys are unique, so Python's tuple comparison
    never reaches the values;
  * Python string comparison as code-point lexicographic order (`charListLe`);
  * Python exceptions as `Option` (`none` = an uncaught exception escaping the
    function; the `except TypeError` branch of the gatherers is the
    `findChild _ _ = none` case, which returns an empty dict);
  * the stray `print(tag)` in `gather_pPr` as an explicit output trace
    (`gather_pPr_prints`).
-/

/-- Python `str(x)` applied to an optional string: `None` prints as "None". -/
def pyStr : Option String → String
  | none => "None"
  | some s => s

/-- Python lexicographic (code-point) `<=` comparison on char lists. -/
def charListLe : List Char → List Char → Bool
  | [], _ => true
  | _ :: _, [] => false
  | a :: as, b :: bs => if a < b then true else if b < a then false else charListLe as bs

/-- Python `<=` on strings: code-point lexicographic order. -/
def strLe (a b : String) : Bool := charListLe a.data b.data

/-- Insert into a sorted list, before any element it does not compare
greater than; together with `sortLe` this is a stable sort, matching
Python's `sorted`. -/
def insertLe (le : α → α → Bool) (a : α) : List α → List α
  | [] => [a]
  | b :: l => if le a b then a :: b :: l else b :: insertLe le a l

/-- Stable insertion sort, the embedding of Python's `sorted`. -/
def sortLe (le : α → α → Bool) : List α → List α
  | [] => []
  | a :: l => insertLe le a (sortLe le l)

/-- Python's `sorted(d.items())` for a dict with string keys: a stable sort by
key (keys of a dict are unique, so values are never compared). -/
def sortItems (m : List (String × α)) : List (String × α) :=
  sortLe (fun a b => strLe a.1 b.1) m

/-- Whether a dict (association list) holds a key. -/
def pyHasKey (m : List (String × α)) (k : String) : Bool :=
  match m with
  | [] => false
  | p :: r => if p.1 = k then true else pyHasKey r k

/-- Python `d.get(k, None)` on a dict: the first (for a dict, only) value at
the key. -/
def pyGet (m : List (String × α)) (k : String) : Option α :=
  match m with
  | [] => none
  | p :: r => if p.1 = k then some p.2 else pyGet r k

/-- Python dict insert-or-overwrite: an existing key keeps its position and
gets the new value, a new key is appended. -/
def pyDictInsert (m : List (String × α)) (k : String) (v : α) : List (String × α) :=
  if pyHasKey m k then m.map (fun p => if p.1 = k then (k, v) else p)
  else m ++ [(k, v)]

/-- An already-parsed XML element: tag, attribute dict, child elements.
Models `xml.etree.ElementTree.Element`. -/
inductive Elem : Type where
  | mk (tag : String) (attrib : List (String × String)) (children : List Elem) : Elem

/-- The element's (fully qualified) tag. -/
def Elem.tag : Elem → String
  | .mk t _ _ => t

/-- The element's attribute dict. -/
def Elem.attrib : Elem → List (String × String)
  | .mk _ a _ => a

/-- The element's immediate children. -/
def Elem.children : Elem → List Elem
  | .mk _ _ c => c

/-- Modelled from the spec: the namespace-resolution collaborator
(`docx2python.namespace.qn`, not under `src/`) maps a short prefixed name such
as `w:rPr` to its fully qualified `\x7buri\x7dlocal` form; only the `w:` prefix
is used by this module. -/
def qn (tag : String) : String :=
  match tag.data with
  | 'w' :: ':' :: loc =>
    String.mk
      (('\x7b' :: "http://schemas.openxmlformats.org/wordprocessingml/2006/main".data) ++
        '\x7d' :: loc)
  | _ => tag

/-- `Element.find(tag)`: the first immediate child with the given tag, if any. -/
def findChild (e : Elem) (t : String) : Option Elem :=
  e.children.find? (fun c => c.tag == t)

/-- `elem.attrib.get(key, None)`. -/
def attribGet (e : Elem) (key : String) : Option String :=
  pyGet e.attrib key

/-- Python `\w` word character (ASCII range, as used by the document tags). -/
def wordChar (c : Char) : Bool := c.isAlphanum || c == '_'

/-- The backtracking search of `re.match(r"\x7b.*\x7d(?P<tag_name>\w+)", tag)`
after the leading brace: `.*` is greedy, so the split is at the LAST closing
brace that is followed by at least one word character; `.` matches no newline,
so a later split is only reachable if no newline precedes it.  Returns the
maximal word-character run after that brace. -/
def matchTail : List Char → Option (List Char)
  | [] => none
  | c :: rest =>
    match matchTail rest with
    | some w => if c = '\n' then none else some w
    | none =>
      if c = '\x7d' ∧ wordChar (rest.headD '\n') then some (rest.takeWhile wordChar)
      else none

/-- Embeds `_elem_tag_str`: the text part of an element tag (the portion after
the namespace), obtained with `re.match(r"\x7b.*\x7d(?P<tag_name>\w+)", ...)`.
`none` models the `AttributeError` raised by `.group` when the regex does not
match (`re.match` returned `None`). -/
def elem_tag_str (tag : String) : Option String :=
  match tag.data with
  | '\x7b' :: rest => (matchTail rest).map (fun w => String.mk w)
  | _ => none

/-- One child of the dict comprehension shared by `gather_tcPr` and
`gather_rPr`: key the child's local tag name, value its `w:val` attribute (or
`None`).  A tag the regex cannot parse raises `AttributeError` (`none`). -/
def gatherStep (acc : Option (List (String × Option String))) (x : Elem) :
    Option (List (String × Option String)) :=
  match acc, elem_tag_str x.tag with
  | some m, some t => some (pyDictInsert m t (attribGet x (qn "w:val")))
  | _, _ => none

/-- Embeds `gather_tcPr`: collect every child of the `w:tcPr` properties node
into a dict mapping its local tag name to its `w:val` attribute (or `None`).
An absent `w:tcPr` raises `TypeError` on iteration, caught and turned into an
empty dict; a child tag the regex cannot parse raises `AttributeError`, which
is NOT caught (`none` result). -/
def gather_tcPr (run_element : Elem) : Option (List (String × Option String)) :=
  match findChild run_element (qn "w:tcPr") with
  | none => some []
  | some tcPrE => tcPrE.children.foldl gatherStep (some [])

/-- Embeds `gather_rPr`: same collection as `gather_tcPr`, on the `w:rPr`
properties node of a run. -/
def gather_rPr (run_element : Elem) : Option (List (String × Option String)) :=
  match findChild run_element (qn "w:rPr") with
  | none => some []
  | some rPrE => rPrE.children.foldl gatherStep (some [])

/-- A value in the paragraph-properties dict: `jc` stores a flat optional
string, `spacing` and `ind` store a fixed sub-dict. -/
inductive PVal : Type where
  | flat (v : Option String) : PVal
  | sub (m : List (String × Option String)) : PVal
deriving DecidableEq

/-- The fixed `spacing` sub-dict literal of `gather_pPr`, in source order. -/
def spacingSub (x : Elem) : List (String × Option String) :=
  [("before", attribGet x (qn "w:before")),
   ("after", attribGet x (qn "w:after")),
   ("line", attribGet x (qn "w:line")),
   ("lineRule", attribGet x (qn "w:lineRule")),
   ("beforeAutospacing", attribGet x (qn "w:beforeAutospacing")),
   ("afterAutospacing", attribGet x (qn "w:afterAutospacing"))]

/-- The fixed `ind` sub-dict literal of `gather_pPr`, in source order. -/
def indSub (x : Elem) : List (String × Option String) :=
  [("left", attribGet x (qn "w:left")),
   ("right", attribGet x (qn "w:right")),
   ("hanging", attribGet x (qn "w:hanging")),
   ("firstLine", attribGet x (qn "w:firstLine"))]

/-- One loop iteration of `gather_pPr` on a child `x`: parse the local tag
(an unparsable tag raises, ending the loop), print it, and store the
special-cased tags; the accumulator carries the dict so far and the printed
lines so far. -/
def pGatherStep (acc : Option (List (String × PVal)) × List String) (x : Elem) :
    Option (List (String × PVal)) × List String :=
  match acc.1 with
  | none => acc
  | some m =>
    match elem_tag_str x.tag with
    | none => (none, acc.2)
    | some t =>
      let m1 :=
        if t = "spacing" then pyDictInsert m t (PVal.sub (spacingSub x))
        else if t = "jc" then pyDictInsert m t (PVal.flat (attribGet x (qn "w:val")))
        else if t = "ind" then pyDictInsert m t (PVal.sub (indSub x))
        else m
      (some m1, acc.2 ++ [t])

/-- Embeds `gather_pPr` together with its `print(tag)` side effect: the first
component is the returned dict (`none` = uncaught `AttributeError`), the second
is the exact sequence of lines written to standard output.  Only children
tagged `spacing`, `jc` or `ind` are stored; every successfully parsed child tag
is printed, stored or not. -/
def gather_pPr_run (run_element : Elem) : Option (List (String × PVal)) × List String :=
  match findChild run_element (qn "w:pPr") with
  | none => (some [], [])
  | some pPrE => pPrE.children.foldl pGatherStep (some [], [])

/-- Embeds `gather_pPr`: the dict it returns (exception as `none`). -/
def gather_pPr (run_element : Elem) : Option (List (String × PVal)) :=
  (gather_pPr_run run_element).1

/-- The lines `gather_pPr` prints to standard output (the `print(tag)` at the
top of its loop). -/
def gather_pPr_prints (run_element : Elem) : List String :=
  (gather_pPr_run run_element).2

/-- Embeds the selection loop of `get_table_cell_style` on an attribute dict:
only `gridSpan` is selected, rendered as `val="<val>"`. -/
def select_table_cell_style (tcPr2val : List (String × Option String)) :
    List (String × String) :=
  (sortItems tcPr2val).foldl
    (fun st p =>
      if p.1 = "gridSpan" then st ++ [(p.1, "val=\"" ++ pyStr p.2 ++ "\"")] else st)
    []

/-- Embeds `get_table_cell_style` (exception from the gatherer propagates). -/
def get_table_cell_style (run_element : Elem) : Option (List (String × String)) :=
  (gather_tcPr run_element).map select_table_cell_style

/-- One `f-string` token `key="value"` of the paragraph sub-dict rendering. -/
def tok (key : String) (value : Option String) : String :=
  key ++ "=\"" ++ pyStr value ++ "\""

/-- Python `repr` of an optional string, as it appears inside `str(dict)`. -/
def pyReprOpt : Option String → String
  | none => "None"
  | some s => "'" ++ s ++ "'"

/-- Python `str` of a sub-dict (only reachable if a `jc` key ever held a
dict, which `gather_pPr` never produces). -/
def pyStrPVal : PVal → String
  | .flat v => pyStr v
  | .sub m =>
    "\x7b" ++ String.intercalate ", " (m.map (fun p => "'" ++ p.1 ++ "': " ++ pyReprOpt p.2)) ++
      "\x7d"

/-- Embeds the selection loop of `get_paragraph_style` on a paragraph dict:
`spacing`/`ind` sub-dicts are flattened to `key="value"` tokens, `jc` becomes a
`justification` entry.  A flat value under `spacing` or `ind` would raise
`AttributeError` on `.items()` (`none`); `gather_pPr` never produces one. -/
def pStep (acc : Option (List (String × String) × List String × List String))
    (p : String × PVal) :
    Option (List (String × String) × List String × List String) :=
  match acc with
  | none => none
  | some (st, sp, ind) =>
    if p.1 = "spacing" then
      match p.2 with
      | .sub mm => some (st, sp ++ mm.map (fun q => tok q.1 q.2), ind)
      | .flat _ => none
    else if p.1 = "ind" then
      match p.2 with
      | .sub mm => some (st, sp, ind ++ mm.map (fun q => tok q.1 q.2))
      | .flat _ => none
    else if p.1 = "jc" then
      some (st ++ [("justification", "val=\"" ++ pyStrPVal p.2 ++ "\"")], sp, ind)
    else some (st, sp, ind)

/-- Embeds the tail of `get_paragraph_style`: run the loop over the sorted
items, then prepend the joined indentation entry, then the joined spacing
entry. -/
def select_paragraph_style (pPr2val : List (String × PVal)) :
    Option (List (String × String)) :=
  ((sortItems pPr2val).foldl pStep (some ([], [], []))).map
    (fun r =>
      let st1 :=
        if r.2.2 = [] then r.1
        else ("indentation", String.intercalate " " (sortLe strLe r.2.2)) :: r.1
      if r.2.1 = [] then st1
      else ("spacing", String.intercalate " " (sortLe strLe r.2.1)) :: st1)

/-- Embeds `get_paragraph_style` (exceptions propagate). -/
def get_paragraph_style (run_element : Elem) : Option (List (String × String)) :=
  (gather_pPr run_element).bind select_paragraph_style

/-- One step of the `get_run_style` selection loop: bare flags are appended to
the style list, `sz`/`color` are rendered into the pending font-token list. -/
def runStep (acc : List (String × String) × List String) (p : String × Option String) :
    List (String × String) × List String :=
  if p.1 = "strike" ∨ p.1 = "s" then (acc.1 ++ [("s", "")], acc.2)
  else if p.1 = "b" ∨ p.1 = "i" ∨ p.1 = "u" then (acc.1 ++ [(p.1, "")], acc.2)
  else if p.1 = "sz" then (acc.1, acc.2 ++ ["size=\"" ++ pyStr p.2 ++ "\""])
  else if p.1 = "color" then (acc.1, acc.2 ++ ["color=\"" ++ pyStr p.2 ++ "\""])
  else acc

/-- Embeds the selection part of `get_run_style` on an attribute dict. -/
def select_run_style (rPr2val : List (String × Option String)) : List (String × String) :=
  let r := (sortItems rPr2val).foldl runStep ([], [])
  if r.2 = [] then r.1
  else ("font", String.intercalate " " (sortLe strLe r.2)) :: r.1

/-- Embeds `get_run_style` (exception from the gatherer propagates). -/
def get_run_style (run_element : Elem) : Option (List (String × String)) :=
  (gather_rPr run_element).map select_run_style

/-- The inner text of one open tag: `" ".join(x for x in y if x)` over the
pair's two components (empty components are dropped). -/
def openText (y : String × String) : String :=
  String.intercalate " " (([y.1, y.2]).filter (fun s => s ≠ ""))

/-- Embeds `style_open`: one `<...>` tag per entry, in sequence order. -/
def style_open (style : List (String × String)) : String :=
  String.join ((style.map openText).map (fun x => "<" ++ x ++ ">"))

/-- Embeds `style_close`: one `</name>` tag per entry, in reversed order. -/
def style_close (style : List (String × String)) : String :=
  String.join (style.reverse.map (fun p => "</" ++ p.1 ++ ">"))

/-! ### Helper lemmas -/

theorem foldl_append_init (l : List String) (a : String) :
    l.foldl (fun r s => r ++ s) a = a ++ l.foldl (fun r s => r ++ s) "" := by
  induction l generalizing a with
  | nil => simp
  | cons s l ih =>
    simp only [List.foldl_cons]
    rw [ih (a ++ s), ih ("" ++ s)]
    simp [String.append_assoc]

theorem string_join_cons (s : String) (l : List String) :
    String.join (s :: l) = s ++ String.join l := by
  simp only [String.join, List.foldl_cons]
  rw [foldl_append_init]
  simp

theorem mem_insertLe (le : α → α → Bool) (a b : α) (l : List α) :
    b ∈ insertLe le a l ↔ b = a ∨ b ∈ l := by
  induction l with
  | nil => simp [insertLe]
  | cons c l ih =>
    by_cases h : le a c = true
    · simp [insertLe, h]
    · simp [insertLe, h, ih]
      tauto

theorem mem_sortLe (le : α → α → Bool) (a : α) (l : List α) :
    a ∈ sortLe le l ↔ a ∈ l := by
  induction l with
  | nil => simp [sortLe]
  | cons b l ih => simp [sortLe, mem_insertLe, ih]

theorem mem_sortItems (m : List (String × α)) (p : String × α) :
    p ∈ sortItems m ↔ p ∈ m :=
  mem_sortLe _ p m

theorem string_join_append (l₁ l₂ : List String) :
    String.join (l₁ ++ l₂) = String.join l₁ ++ String.join l₂ := by
  induction l₁ with
  | nil => simp [String.join]
  | cons s l ih =>
    rw [List.cons_append, string_join_cons, string_join_cons, ih, String.append_assoc]

theorem tc_foldl (l : List (String × Option String)) (st : List (String × String)) :
    l.foldl
        (fun st p =>
          if p.1 = "gridSpan" then st ++ [(p.1, "val=\"" ++ pyStr p.2 ++ "\"")] else st)
        st =
      st ++ l.filterMap
        (fun p =>
          if p.1 = "gridSpan" then some (p.1, "val=\"" ++ pyStr p.2 ++ "\"") else none) := by
  induction l generalizing st with
  | nil => simp
  | cons p l ih =>
    by_cases h : p.1 = "gridSpan" <;> simp [h, ih, List.filterMap_cons]

/-- C1: `style_close` is the concatenation, in exactly reverse sequence order,
of `</name>` per entry — the reverse of the per-entry order in which
`style_open` emits its open tags; close tags never contain the attribute
string (replacing every attribute string leaves the close string unchanged);
and both serializers send the empty sequence to the empty string. -/
theorem style_close_reverses_style_open (style : List (String × String))
    (e : String × String) :
    style_close style = String.join ((style.map (fun p => "</" ++ p.1 ++ ">")).reverse)
    ∧ style_open style = String.join (style.map (fun p => "<" ++ openText p ++ ">"))
    ∧ style_open (e :: style) = ("<" ++ openText e ++ ">") ++ style_open style
    ∧ style_close (e :: style) = style_close style ++ ("</" ++ e.1 ++ ">")
    ∧ style_close style = style_close (style.map (fun p => (p.1, "")))
    ∧ style_open ([] : List (String × String)) = ""
    ∧ style_close ([] : List (String × String)) = "" := by
  refine ⟨?_, ?_, ?_, ?_, ?_, rfl, rfl⟩
  · simp [style_close, List.map_reverse]
  · rw [style_open, List.map_map]
    rfl
  · simp only [style_open, List.map_cons, string_join_cons]
  · simp only [style_close, List.reverse_cons, List.map_append, List.map_cons, List.map_nil]
    rw [string_join_append]
    simp [string_join_cons, String.join]
  · simp only [style_close]
    rw [← List.map_reverse, List.map_map]
    rfl

/-- C7: on every table-cell attribute dict, the selection keeps exactly the
`gridSpan` items of the sorted dict, rendered as `(tag, val="<val>")`; in
particular every entry of the output is named `gridSpan`, however many other
`tcPr` children were collected. -/
theorem table_cell_style_only_gridSpan (m : List (String × Option String)) :
    select_table_cell_style m =
      (sortItems m).filterMap
        (fun p =>
          if p.1 = "gridSpan" then some (p.1, "val=\"" ++ pyStr p.2 ++ "\"") else none)
    ∧ (select_table_cell_style m).all (fun p => p.1 == "gridSpan") = true := by
  have h := tc_foldl (sortItems m) []
  constructor
  · simpa [select_table_cell_style] using h
  · simp only [select_table_cell_style, h, List.nil_append, List.all_eq_true]
    intro p hp
    obtain ⟨q, _, hq⟩ := List.mem_filterMap.mp hp
    by_cases hg : q.1 = "gridSpan"
    · simp [hg] at hq
      simp [← hq]
    · simp [hg] at hq

/-- Spec-side classification of one run attribute: `strike`/`s` normalize to
the bare flag `("s", "")`; `b`, `i`, `u` each give the bare flag
`(tagname, "")` with the source value dropped; everything else gives no flag
entry. -/
def flagOf (p : String × Option String) : Option (String × String) :=
  if p.1 = "strike" ∨ p.1 = "s" then some ("s", "")
  else if p.1 = "b" ∨ p.1 = "i" ∨ p.1 = "u" then some (p.1, "")
  else none

/-- Spec-side font-token extraction of one run attribute: `sz` and `color`
render to a `size="..."` / `color="..."` token of the combined font entry;
everything else contributes none. -/
def fontTokenOf (p : String × Option String) : Option String :=
  if p.1 = "sz" then some ("size=\"" ++ pyStr p.2 ++ "\"")
  else if p.1 = "color" then some ("color=\"" ++ pyStr p.2 ++ "\"")
  else none

theorem run_foldl (l : List (String × Option String)) (st : List (String × String))
    (fs : List String) :
    l.foldl runStep (st, fs) = (st ++ l.filterMap flagOf, fs ++ l.filterMap fontTokenOf) := by
  induction l generalizing st fs with
  | nil => simp
  | cons p l ih =>
    by_cases h1 : p.1 = "strike" ∨ p.1 = "s"
    · simp [runStep, flagOf, fontTokenOf, h1, ih, List.filterMap_cons,
        show ¬(p.1 = "sz") by rcases h1 with h | h <;> simp [h],
        show ¬(p.1 = "color") by rcases h1 with h | h <;> simp [h]]
    · by_cases h2 : p.1 = "b" ∨ p.1 = "i" ∨ p.1 = "u"
      · simp [runStep, flagOf, fontTokenOf, h1, h2, ih, List.filterMap_cons,
          show ¬(p.1 = "sz") by rcases h2 with h | h | h <;> simp [h],
          show ¬(p.1 = "color") by rcases h2 with h | h | h <;> simp [h]]
      · by_cases h3 : p.1 = "sz"
        · simp [runStep, flagOf, fontTokenOf, h1, h2, h3, ih, List.filterMap_cons]
        · by_cases h4 : p.1 = "color"
          · simp [runStep, flagOf, fontTokenOf, h1, h2, h3, h4, ih, List.filterMap_cons]
          · simp [runStep, flagOf, fontTokenOf, h1, h2, h3, h4, ih, List.filterMap_cons]

/-- C2: on every run attribute dict, the selection equals: sort the items by
tag; `b`/`i`/`u` (and `strike`/`s`) become bare flags with empty rendered
string, their source value dropped; `sz`/`color` never appear as entries of
their own but only as alphabetically sorted tokens of one combined
`("font", ...)` entry, which, when any font token exists, is prepended in
front of the bare flags (which keep the alphabetical order of their tags). -/
theorem run_style_structure (m : List (String × Option String)) :
    select_run_style m =
      (if (sortItems m).filterMap fontTokenOf = [] then []
       else
         [("font",
           String.intercalate " " (sortLe strLe ((sortItems m).filterMap fontTokenOf)))]) ++
        (sortItems m).filterMap flagOf := by
  have h := run_foldl (sortItems m) [] []
  by_cases hf : (sortItems m).filterMap fontTokenOf = [] <;>
    simp [select_run_style, h, hf]

/-- Whether a paragraph dict value is a sub-dict (what `gather_pPr` always
stores under `spacing` and `ind`). -/
def isSub : PVal → Bool
  | .sub _ => true
  | .flat _ => false

/-- Spec-side extraction of the justification entry of one paragraph item. -/
def jcEntryOf (p : String × PVal) : Option (String × String) :=
  if p.1 = "jc" ∧ ¬p.1 = "spacing" ∧ ¬p.1 = "ind" then
    some ("justification", "val=\"" ++ pyStrPVal p.2 ++ "\"")
  else none

/-- Spec-side spacing tokens of one paragraph item: the `key="value"` tokens
of its sub-dict if the item is a well-formed `spacing`, nothing otherwise. -/
def spacingToksOf (p : String × PVal) : List String :=
  if p.1 = "spacing" then
    match p.2 with
    | .sub mm => mm.map (fun q => tok q.1 q.2)
    | .flat _ => []
  else []

/-- Spec-side indentation tokens of one paragraph item. -/
def indToksOf (p : String × PVal) : List String :=
  if p.1 = "ind" ∧ ¬p.1 = "spacing" then
    match p.2 with
    | .sub mm => mm.map (fun q => tok q.1 q.2)
    | .flat _ => []
  else []

theorem p_foldl (l : List (String × PVal)) (st : List (String × String))
    (sp ind : List String)
    (h : ∀ p ∈ l, (p.1 = "spacing" ∨ p.1 = "ind") → isSub p.2 = true) :
    l.foldl pStep (some (st, sp, ind)) =
      some (st ++ l.filterMap jcEntryOf, sp ++ l.flatMap spacingToksOf,
        ind ++ l.flatMap indToksOf) := by
  induction l generalizing st sp ind with
  | nil => simp
  | cons p l ih =>
    have hl : ∀ p ∈ l, (p.1 = "spacing" ∨ p.1 = "ind") → isSub p.2 = true :=
      fun q hq => h q (List.mem_cons_of_mem p hq)
    by_cases h1 : p.1 = "spacing"
    · obtain ⟨mm, hmm⟩ : ∃ mm, p.2 = PVal.sub mm := by
        have := h p (List.mem_cons_self p l) (Or.inl h1)
        cases hp2 : p.2 with
        | flat v => rw [hp2] at this; simp [isSub] at this
        | sub mm => exact ⟨mm, rfl⟩
      have h2 : ¬p.1 = "ind" := by simp [h1]
      simp [pStep, h1, hmm, ih _ _ _ hl, jcEntryOf, spacingToksOf, indToksOf,
        List.filterMap_cons, List.append_assoc, show ¬p.1 = "jc" by simp [h1]]
    · by_cases h2 : p.1 = "ind"
      · obtain ⟨mm, hmm⟩ : ∃ mm, p.2 = PVal.sub mm := by
          have := h p (List.mem_cons_self p l) (Or.inr h2)
          cases hp2 : p.2 with
          | flat v => rw [hp2] at this; simp [isSub] at this
          | sub mm => exact ⟨mm, rfl⟩
        simp [pStep, h1, h2, hmm, ih _ _ _ hl, jcEntryOf, spacingToksOf, indToksOf,
          List.filterMap_cons, List.append_assoc, show ¬p.1 = "jc" by simp [h2]]
      · by_cases h3 : p.1 = "jc"
        · simp [pStep, h1, h2, h3, ih _ _ _ hl, jcEntryOf, spacingToksOf, indToksOf,
            List.filterMap_cons, List.append_assoc]
        · simp [pStep, h1, h2, h3, ih _ _ _ hl, jcEntryOf, spacingToksOf, indToksOf,
            List.filterMap_cons]

/-- C4: on every paragraph attribute dict whose `spacing`/`ind` values are
sub-dicts (as `gather_pPr` always produces), the selection has a fixed final
order regardless of discovery order: the indentation entry is inserted at
position 0 and then the spacing entry is inserted at position 0, so the result
is the optional spacing entry first, then the optional indentation entry, then
the justification entries and anything else accumulated by the loop. -/
theorem paragraph_style_order (m : List (String × PVal))
    (h : ∀ p ∈ m, (p.1 = "spacing" ∨ p.1 = "ind") → isSub p.2 = true) :
    select_paragraph_style m =
      some
        ((if (sortItems m).flatMap spacingToksOf = [] then []
          else
            [("spacing",
              String.intercalate " " (sortLe strLe ((sortItems m).flatMap spacingToksOf)))]) ++
         (if (sortItems m).flatMap indToksOf = [] then []
          else
            [("indentation",
              String.intercalate " " (sortLe strLe ((sortItems m).flatMap indToksOf)))]) ++
         (sortItems m).filterMap jcEntryOf) := by
  have hs : ∀ p ∈ sortItems m, (p.1 = "spacing" ∨ p.1 = "ind") → isSub p.2 = true :=
    fun p hp => h p ((mem_sortItems m p).mp hp)
  have hf := p_foldl (sortItems m) [] [] [] hs
  by_cases h1 : (sortItems m).flatMap spacingToksOf = [] <;>
    by_cases h2 : (sortItems m).flatMap indToksOf = [] <;>
      simp [select_paragraph_style, hf, h1, h2]

/-- Witness for C4 at a concrete dict holding justification, indentation and
spacing: the spacing entry comes first, then indentation, then justification. -/
theorem paragraph_style_order_witness :
    (∀ p ∈ ([("jc", PVal.flat (some "center")),
        ("ind", PVal.sub [("left", some "10")]),
        ("spacing", PVal.sub [("before", some "120"), ("after", some "120")])] :
          List (String × PVal)),
      (p.1 = "spacing" ∨ p.1 = "ind") → isSub p.2 = true)
    ∧ select_paragraph_style
        [("jc", PVal.flat (some "center")),
         ("ind", PVal.sub [("left", some "10")]),
         ("spacing", PVal.sub [("before", some "120"), ("after", some "120")])] =
      some [("spacing", "after=\"120\" before=\"120\""),
        ("indentation", "left=\"10\""),
        ("justification", "val=\"center\"")] := by
  refine ⟨by decide, ?_⟩
  have := paragraph_style_order
    [("jc", PVal.flat (some "center")),
     ("ind", PVal.sub [("left", some "10")]),
     ("spacing", PVal.sub [("before", some "120"), ("after", some "120")])]
    (by decide)
  simpa using this

/-- C3: whenever the formatting-properties child (`rPr` / `pPr` / `tcPr`) is
absent from a source element, the collector returns an empty dict, the
selector an empty style sequence, and the serializer two empty strings; the
`TypeError` from iterating the absent node is caught inside the collector, so
no error reaches the caller. -/
theorem absent_properties_child_empty (e : Elem) :
    (findChild e (qn "w:rPr") = none →
      gather_rPr e = some [] ∧ get_run_style e = some [])
    ∧ (findChild e (qn "w:pPr") = none →
      gather_pPr e = some [] ∧ get_paragraph_style e = some [])
    ∧ (findChild e (qn "w:tcPr") = none →
      gather_tcPr e = some [] ∧ get_table_cell_style e = some [])
    ∧ style_open ([] : List (String × String)) = ""
    ∧ style_close ([] : List (String × String)) = "" := by
  refine ⟨fun h => ?_, fun h => ?_, fun h => ?_, rfl, rfl⟩
  · have hg : gather_rPr e = some [] := by simp [gather_rPr, h]
    exact ⟨hg, by simp [get_run_style, hg]; rfl⟩
  · have hg : gather_pPr e = some [] := by simp [gather_pPr, gather_pPr_run, h]
    exact ⟨hg, by simp [get_paragraph_style, hg]; rfl⟩
  · have hg : gather_tcPr e = some [] := by simp [gather_tcPr, h]
    exact ⟨hg, by simp [get_table_cell_style, hg]; rfl⟩

/-- Witness for C3: a childless element has none of the three properties
children, and collection, selection and serialization all come back empty. -/
theorem absent_properties_child_empty_witness :
    (findChild (Elem.mk "x" [] []) (qn "w:rPr") = none
      ∧ gather_rPr (Elem.mk "x" [] []) = some []
      ∧ get_run_style (Elem.mk "x" [] []) = some [])
    ∧ (findChild (Elem.mk "x" [] []) (qn "w:pPr") = none
      ∧ gather_pPr (Elem.mk "x" [] []) = some []
      ∧ get_paragraph_style (Elem.mk "x" [] []) = some [])
    ∧ (findChild (Elem.mk "x" [] []) (qn "w:tcPr") = none
      ∧ gather_tcPr (Elem.mk "x" [] []) = some []
      ∧ get_table_cell_style (Elem.mk "x" [] []) = some [])
    ∧ style_open ([] : List (String × String)) = ""
    ∧ style_close ([] : List (String × String)) = "" := by
  have h := absent_properties_child_empty (Elem.mk "x" [] [])
  exact ⟨⟨rfl, h.1 rfl⟩, ⟨rfl, h.2.1 rfl⟩, ⟨rfl, h.2.2.1 rfl⟩, h.2.2.2.1, h.2.2.2.2⟩

theorem pyGet_overwrite_self : ∀ (m : List (String × α)) (k : String) (v : α),
    pyHasKey m k = true → pyGet (m.map fun p => if p.1 = k then (k, v) else p) k = some v
  | [], k, v, h => by simp [pyHasKey] at h
  | q :: m, k, v, h => by
    by_cases hq : q.1 = k
    · simp [pyGet, hq]
    · have hm : pyHasKey m k = true := by simpa [pyHasKey, hq] using h
      simp [pyGet, hq, pyGet_overwrite_self m k v hm]

theorem pyGet_append_self : ∀ (m : List (String × α)) (k : String) (v : α),
    pyHasKey m k = false → pyGet (m ++ [(k, v)]) k = some v
  | [], k, v, _ => by simp [pyGet]
  | q :: m, k, v, h => by
    by_cases hq : q.1 = k
    · simp [pyHasKey, hq] at h
    · have hm : pyHasKey m k = false := by simpa [pyHasKey, hq] using h
      simp [pyGet, hq, pyGet_append_self m k v hm]

theorem pyGet_overwrite_ne : ∀ (m : List (String × α)) (k t : String) (v : α), ¬t = k →
    pyGet (m.map fun p => if p.1 = k then (k, v) else p) t = pyGet m t
  | [], _, _, _, _ => rfl
  | q :: m, k, t, v, h => by
    by_cases hq : q.1 = k
    · simp only [List.map_cons, hq, if_true, pyGet]
      rw [if_neg (fun e => h e.symm), if_neg (fun e => h e.symm)]
      exact pyGet_overwrite_ne m k t v h
    · simp only [List.map_cons, hq, if_false, pyGet]
      by_cases ht : q.1 = t
      · simp [ht]
      · simp [ht, pyGet_overwrite_ne m k t v h]

theorem pyGet_append_ne : ∀ (m : List (String × α)) (k t : String) (v : α), ¬t = k →
    pyGet (m ++ [(k, v)]) t = pyGet m t
  | [], k, t, v, h => by simp [pyGet, show ¬k = t from fun e => h e.symm]
  | q :: m, k, t, v, h => by
    simp only [List.cons_append, pyGet]
    by_cases ht : q.1 = t
    · simp [ht]
    · simp [ht, pyGet_append_ne m k t v h]

theorem pyDictInsert_get_self (m : List (String × α)) (k : String) (v : α) :
    pyGet (pyDictInsert m k v) k = some v := by
  by_cases h : pyHasKey m k = true
  · simp only [pyDictInsert, h, if_true]
    exact pyGet_overwrite_self m k v h
  · simp only [pyDictInsert, h, if_false]
    exact pyGet_append_self m k v (by simpa using h)

theorem pyDictInsert_get_ne (m : List (String × α)) (k t : String) (v : α)
    (h : ¬t = k) : pyGet (pyDictInsert m k v) t = pyGet m t := by
  by_cases hc : pyHasKey m k = true
  · simp only [pyDictInsert, hc, if_true]
    exact pyGet_overwrite_ne m k t v h
  · simp only [pyDictInsert, hc, if_false]
    exact pyGet_append_ne m k t v h

theorem mem_keys_overwrite_self : ∀ (m : List (String × α)) (k : String) (v : α),
    pyHasKey m k = true → k ∈ (m.map fun p => if p.1 = k then (k, v) else p).map Prod.fst
  | [], k, v, h => by simp [pyHasKey] at h
  | q :: m, k, v, h => by
    by_cases hq : q.1 = k
    · simp [hq]
    · have hm : pyHasKey m k = true := by simpa [pyHasKey, hq] using h
      simp only [List.map_cons, hq, if_false, List.mem_cons]
      exact Or.inr (mem_keys_overwrite_self m k v hm)

theorem mem_keys_pyDictInsert_self (m : List (String × α)) (k : String) (v : α) :
    k ∈ (pyDictInsert m k v).map Prod.fst := by
  by_cases h : pyHasKey m k = true
  · simp only [pyDictInsert, h, if_true]
    exact mem_keys_overwrite_self m k v h
  · simp [pyDictInsert, h]

theorem mem_keys_pyDictInsert_mono (m : List (String × α)) (k : String) (v : α)
    (a : String) (h : a ∈ m.map Prod.fst) : a ∈ (pyDictInsert m k v).map Prod.fst := by
  obtain ⟨p, hp, hpa⟩ := List.mem_map.mp h
  by_cases hc : pyHasKey m k = true
  · simp only [pyDictInsert, hc, if_true, List.map_map, List.mem_map]
    refine ⟨p, hp, ?_⟩
    by_cases hpk : p.1 = k
    · simp only [Function.comp, hpk, if_true]
      rw [← hpa, hpk]
    · simp only [Function.comp, hpk, if_false]
      exact hpa
  · have hc' : pyHasKey m k = false := by simpa using hc
    simp only [pyDictInsert, hc', Bool.false_eq_true, if_false, List.map_append,
      List.mem_append]
    exact Or.inl h

theorem keys_pyDictInsert_subset (m : List (String × α)) (k : String) (v : α)
    (a : String) (h : a ∈ (pyDictInsert m k v).map Prod.fst) :
    a ∈ m.map Prod.fst ∨ a = k := by
  by_cases hc : pyHasKey m k = true
  · simp only [pyDictInsert, hc, if_true, List.map_map, List.mem_map] at h
    obtain ⟨p, hp, hpa⟩ := h
    by_cases hpk : p.1 = k
    · simp only [Function.comp, hpk, if_true] at hpa
      exact Or.inr hpa.symm
    · simp only [Function.comp, hpk, if_false] at hpa
      exact Or.inl (List.mem_map.mpr ⟨p, hp, hpa⟩)
  · have hc' : pyHasKey m k = false := by simpa using hc
    simp only [pyDictInsert, hc', Bool.false_eq_true, if_false, List.map_append,
      List.mem_append] at h
    rcases h with h | h
    · exact Or.inl h
    · simp at h
      exact Or.inr h

theorem gatherFold_none (l : List Elem) : l.foldl gatherStep none = none := by
  induction l with
  | nil => rfl
  | cons x l ih => simpa [gatherStep] using ih

theorem gatherFold_isSome : ∀ (l : List Elem) (m0 : List (String × Option String)),
    (∀ x ∈ l, (elem_tag_str x.tag).isSome = true) →
    (l.foldl gatherStep (some m0)).isSome = true
  | [], m0, _ => rfl
  | x :: l, m0, h => by
    obtain ⟨t, ht⟩ := Option.isSome_iff_exists.mp (h x (List.mem_cons_self x l))
    have step : gatherStep (some m0) x =
        some (pyDictInsert m0 t (attribGet x (qn "w:val"))) := by
      simp [gatherStep, ht]
    rw [List.foldl_cons, step]
    exact gatherFold_isSome l _ (fun y hy => h y (List.mem_cons_of_mem x hy))

theorem gatherFold_keys_mono : ∀ (l : List Elem) (m0 m' : List (String × Option String)),
    l.foldl gatherStep (some m0) = some m' →
    ∀ a ∈ m0.map Prod.fst, a ∈ m'.map Prod.fst
  | [], m0, m', hf, a, ha => by
    rw [List.foldl_nil] at hf
    cases hf
    exact ha
  | x :: l, m0, m', hf, a, ha => by
    rw [List.foldl_cons] at hf
    cases ht : elem_tag_str x.tag with
    | none =>
      rw [show gatherStep (some m0) x = none by simp [gatherStep, ht],
        gatherFold_none] at hf
      cases hf
    | some t =>
      rw [show gatherStep (some m0) x =
          some (pyDictInsert m0 t (attribGet x (qn "w:val"))) by
        simp [gatherStep, ht]] at hf
      exact gatherFold_keys_mono l _ m' hf a (mem_keys_pyDictInsert_mono m0 t _ a ha)

theorem gatherFold_child_key : ∀ (l : List Elem) (m0 m' : List (String × Option String)),
    l.foldl gatherStep (some m0) = some m' →
    ∀ x ∈ l, ∀ t, elem_tag_str x.tag = some t → t ∈ m'.map Prod.fst
  | [], _, _, _, x, hx, _, _ => absurd hx (List.not_mem_nil x)
  | y :: l, m0, m', hf, x, hx, t, ht => by
    rw [List.foldl_cons] at hf
    cases hty : elem_tag_str y.tag with
    | none =>
      rw [show gatherStep (some m0) y = none by simp [gatherStep, hty],
        gatherFold_none] at hf
      cases hf
    | some ty =>
      rw [show gatherStep (some m0) y =
          some (pyDictInsert m0 ty (attribGet y (qn "w:val"))) by
        simp [gatherStep, hty]] at hf
      rcases List.mem_cons.mp hx with hxy | hxl
      · subst hxy
        rw [hty] at ht
        cases ht
        exact gatherFold_keys_mono l _ m' hf t (mem_keys_pyDictInsert_self m0 t _)
      · exact gatherFold_child_key l _ m' hf x hxl t ht

/-- The value the dict comprehension of `gather_rPr`/`gather_tcPr` ends up
holding at key `t`: the `w:val` attribute (or `None`) of the LAST child whose
local tag name is `t`, and no entry at all when no child bears the tag — the
last same-tagged child wins, exactly as repeated dict insertion does. -/
def lastValWithTag : List Elem → String → Option (Option String)
  | [], _ => none
  | x :: r, t =>
    match lastValWithTag r t with
    | some v => some v
    | none =>
      if elem_tag_str x.tag = some t then some (attribGet x (qn "w:val")) else none

theorem gatherFold_get_last :
    ∀ (l : List Elem) (m0 m' : List (String × Option String)),
    l.foldl gatherStep (some m0) = some m' →
    ∀ t, pyGet m' t =
      match lastValWithTag l t with
      | some v => some v
      | none => pyGet m0 t
  | [], m0, m', hf, t => by
    rw [List.foldl_nil] at hf
    cases hf
    rfl
  | y :: l, m0, m', hf, t => by
    rw [List.foldl_cons] at hf
    cases hty : elem_tag_str y.tag with
    | none =>
      rw [show gatherStep (some m0) y = none by simp [gatherStep, hty],
        gatherFold_none] at hf
      cases hf
    | some ty =>
      rw [show gatherStep (some m0) y =
          some (pyDictInsert m0 ty (attribGet y (qn "w:val"))) by
        simp [gatherStep, hty]] at hf
      have ih := gatherFold_get_last l _ m' hf t
      cases hrest : lastValWithTag l t with
      | some v =>
        rw [hrest] at ih
        simp only [lastValWithTag, hrest]
        exact ih
      | none =>
        rw [hrest] at ih
        simp only [lastValWithTag, hrest, hty]
        by_cases het : ty = t
        · subst het
          simp only [if_pos rfl]
          rw [ih]
          exact pyDictInsert_get_self m0 ty _
        · rw [if_neg (fun e => het (Option.some.inj e))]
          rw [ih]
          exact pyDictInsert_get_ne m0 ty t _ (fun e => het e.symm)

theorem pFold_none (l : List Elem) (pr : List String) :
    l.foldl pGatherStep (none, pr) = (none, pr) := by
  induction l with
  | nil => rfl
  | cons x l ih => simpa [pGatherStep] using ih

theorem pFold_fst_isSome : ∀ (l : List Elem) (m0 : List (String × PVal)) (pr0 : List String),
    (∀ x ∈ l, (elem_tag_str x.tag).isSome = true) →
    ((l.foldl pGatherStep (some m0, pr0)).1).isSome = true
  | [], _, _, _ => rfl
  | x :: l, m0, pr0, h => by
    obtain ⟨t, ht⟩ := Option.isSome_iff_exists.mp (h x (List.mem_cons_self x l))
    rw [List.foldl_cons, show pGatherStep (some m0, pr0) x =
      (some (if t = "spacing" then pyDictInsert m0 t (PVal.sub (spacingSub x))
        else if t = "jc" then pyDictInsert m0 t (PVal.flat (attribGet x (qn "w:val")))
        else if t = "ind" then pyDictInsert m0 t (PVal.sub (indSub x))
        else m0), pr0 ++ [t]) by simp [pGatherStep, ht]]
    exact pFold_fst_isSome l _ _ (fun y hy => h y (List.mem_cons_of_mem x hy))

theorem pFold_keys : ∀ (l : List Elem) (m0 : List (String × PVal)) (pr0 : List String)
    (m' : List (String × PVal)) (pr' : List String),
    l.foldl pGatherStep (some m0, pr0) = (some m', pr') →
    ∀ a ∈ m'.map Prod.fst,
      a ∈ m0.map Prod.fst ∨ a = "spacing" ∨ a = "jc" ∨ a = "ind"
  | [], m0, pr0, m', pr', hf, a, ha => by
    rw [List.foldl_nil] at hf
    cases hf
    exact Or.inl ha
  | x :: l, m0, pr0, m', pr', hf, a, ha => by
    rw [List.foldl_cons] at hf
    cases ht : elem_tag_str x.tag with
    | none =>
      rw [show pGatherStep (some m0, pr0) x = (none, pr0) by simp [pGatherStep, ht],
        pFold_none] at hf
      cases hf
    | some t =>
      rw [show pGatherStep (some m0, pr0) x =
        (some (if t = "spacing" then pyDictInsert m0 t (PVal.sub (spacingSub x))
          else if t = "jc" then pyDictInsert m0 t (PVal.flat (attribGet x (qn "w:val")))
          else if t = "ind" then pyDictInsert m0 t (PVal.sub (indSub x))
          else m0), pr0 ++ [t]) by simp [pGatherStep, ht]] at hf
      have step := pFold_keys l _ _ m' pr' hf a ha
      rcases step with hin | h3
      · by_cases h1 : t = "spacing"
        · rw [if_pos h1] at hin
          rcases keys_pyDictInsert_subset _ _ _ a hin with h | h
          · exact Or.inl h
          · exact Or.inr (Or.inl (h.trans h1))
        · by_cases h2 : t = "jc"
          · rw [if_neg h1, if_pos h2] at hin
            rcases keys_pyDictInsert_subset _ _ _ a hin with h | h
            · exact Or.inl h
            · exact Or.inr (Or.inr (Or.inl (h.trans h2)))
          · by_cases h4 : t = "ind"
            · rw [if_neg h1, if_neg h2, if_pos h4] at hin
              rcases keys_pyDictInsert_subset _ _ _ a hin with h | h
              · exact Or.inl h
              · exact Or.inr (Or.inr (Or.inr (h.trans h4)))
            · rw [if_neg h1, if_neg h2, if_neg h4] at hin
              exact Or.inl hin
      · exact Or.inr h3

/-- Counterexample to C5 as stated: a paragraph whose `pPr` node has a
`pStyle` child (local tag name `pStyle`, correctly parsed) yields an EMPTY
attribute dict — `gather_pPr` records only `spacing`, `jc` and `ind`
children, so this child's tag is omitted from the map. -/
theorem collector_all_children_counterexample :
    findChild
        (Elem.mk (qn "w:p") []
          [Elem.mk (qn "w:pPr") [] [Elem.mk (qn "w:pStyle") [(qn "w:val", "Heading1")] []]])
        (qn "w:pPr") =
      some (Elem.mk (qn "w:pPr") [] [Elem.mk (qn "w:pStyle") [(qn "w:val", "Heading1")] []])
    ∧ elem_tag_str (qn "w:pStyle") = some "pStyle"
    ∧ gather_pPr
        (Elem.mk (qn "w:p") []
          [Elem.mk (qn "w:pPr") [] [Elem.mk (qn "w:pStyle") [(qn "w:val", "Heading1")] []]]) =
      some [] :=
  ⟨rfl, by decide, by decide⟩

/-- C5 (amended): for run and table-cell elements whose properties child is
present and whose collection succeeds, the returned map has a key for every
immediate child's local tag name, and the value at every local tag name is
the `w:val` attribute (or `None`) of the last child bearing that tag — the
last same-tagged child wins — with no entry for tags no child bears; for
paragraph elements, however, only children tagged `spacing`, `jc` or `ind` are
ever recorded — every key of the returned map is one of those three. -/
theorem collector_keys_amended (e : Elem) :
    (∀ rPrE m, findChild e (qn "w:rPr") = some rPrE → gather_rPr e = some m →
      (∀ x ∈ rPrE.children, ∀ t, elem_tag_str x.tag = some t → t ∈ m.map Prod.fst)
      ∧ (∀ t, pyGet m t = lastValWithTag rPrE.children t))
    ∧ (∀ tcPrE m, findChild e (qn "w:tcPr") = some tcPrE → gather_tcPr e = some m →
      (∀ x ∈ tcPrE.children, ∀ t, elem_tag_str x.tag = some t → t ∈ m.map Prod.fst)
      ∧ (∀ t, pyGet m t = lastValWithTag tcPrE.children t))
    ∧ (∀ pPrE m, findChild e (qn "w:pPr") = some pPrE → gather_pPr e = some m →
        ∀ a ∈ m.map Prod.fst, a = "spacing" ∨ a = "jc" ∨ a = "ind") := by
  refine ⟨fun rPrE m hfind hm => ?_, fun tcPrE m hfind hm => ?_, fun pPrE m hfind hm => ?_⟩
  · rw [gather_rPr, hfind] at hm
    refine ⟨gatherFold_child_key rPrE.children [] m hm, fun t => ?_⟩
    have h := gatherFold_get_last rPrE.children [] m hm t
    cases hl : lastValWithTag rPrE.children t with
    | some v => rw [hl] at h; exact h
    | none => rw [hl] at h; exact h
  · rw [gather_tcPr, hfind] at hm
    refine ⟨gatherFold_child_key tcPrE.children [] m hm, fun t => ?_⟩
    have h := gatherFold_get_last tcPrE.children [] m hm t
    cases hl : lastValWithTag tcPrE.children t with
    | some v => rw [hl] at h; exact h
    | none => rw [hl] at h; exact h
  · rw [gather_pPr, gather_pPr_run, hfind] at hm
    have hpair : pPrE.children.foldl pGatherStep (some [], []) =
        (some m, (pPrE.children.foldl pGatherStep (some [], [])).2) := by
      rw [← hm]
    intro a ha
    rcases pFold_keys pPrE.children [] [] m _ hpair a ha with h | h
    · simp at h
    · exact h

/-- Witness for C5 (amended) on a run whose `rPr` has a `sz="20"` child, a
bare `b` child and a second `sz="28"` child: the key `b` is present, and the
`sz` value in the map is the last child's `"28"`, the dict's last-wins rule. -/
theorem collector_keys_amended_witness :
    "b" ∈ ([("sz", (some "28" : Option String)), ("b", none)].map Prod.fst)
    ∧ pyGet [("sz", (some "28" : Option String)), ("b", none)] "sz" =
        lastValWithTag
          [Elem.mk (qn "w:sz") [(qn "w:val", "20")] [], Elem.mk (qn "w:b") [] [],
           Elem.mk (qn "w:sz") [(qn "w:val", "28")] []] "sz"
    ∧ lastValWithTag
        [Elem.mk (qn "w:sz") [(qn "w:val", "20")] [], Elem.mk (qn "w:b") [] [],
         Elem.mk (qn "w:sz") [(qn "w:val", "28")] []] "sz" = some (some "28") := by
  have h := (collector_keys_amended
    (Elem.mk (qn "w:r") []
      [Elem.mk (qn "w:rPr") []
        [Elem.mk (qn "w:sz") [(qn "w:val", "20")] [], Elem.mk (qn "w:b") [] [],
         Elem.mk (qn "w:sz") [(qn "w:val", "28")] []]])).1
    (Elem.mk (qn "w:rPr") []
      [Elem.mk (qn "w:sz") [(qn "w:val", "20")] [], Elem.mk (qn "w:b") [] [],
       Elem.mk (qn "w:sz") [(qn "w:val", "28")] []])
    [("sz", some "28"), ("b", none)] rfl (by decide)
  refine ⟨?_, h.2 "sz", by decide⟩
  exact h.1 (Elem.mk (qn "w:b") [] [])
    (List.mem_cons_of_mem _ (List.mem_cons_self _ _)) "b" (by decide)

/-- Counterexample to C8 as stated: a run whose `rPr` has a child with the
non-namespaced tag `b` makes `_elem_tag_str`'s regex fail, so `.group` raises
`AttributeError`, which the `except TypeError` clause does not catch — the
collector does not return a map. -/
theorem collector_totality_counterexample :
    elem_tag_str "b" = none
    ∧ gather_rPr
        (Elem.mk (qn "w:r") [] [Elem.mk (qn "w:rPr") [] [Elem.mk "b" [] []]]) = none :=
  ⟨rfl, by decide⟩

/-- C8 (amended): the collectors return a map for every element whose
properties children all carry regex-parsable (namespaced) tags — in
particular for all schema-conforming input — and an absent properties child
is handled as the empty map; the only escaping error is the `AttributeError`
on a child tag the regex cannot parse. -/
theorem collector_totality_amended (e : Elem) :
    (∀ rPrE, findChild e (qn "w:rPr") = some rPrE →
      (∀ x ∈ rPrE.children, (elem_tag_str x.tag).isSome = true) →
      (gather_rPr e).isSome = true)
    ∧ (findChild e (qn "w:rPr") = none → gather_rPr e = some [])
    ∧ (∀ tcPrE, findChild e (qn "w:tcPr") = some tcPrE →
      (∀ x ∈ tcPrE.children, (elem_tag_str x.tag).isSome = true) →
      (gather_tcPr e).isSome = true)
    ∧ (findChild e (qn "w:tcPr") = none → gather_tcPr e = some [])
    ∧ (∀ pPrE, findChild e (qn "w:pPr") = some pPrE →
      (∀ x ∈ pPrE.children, (elem_tag_str x.tag).isSome = true) →
      (gather_pPr e).isSome = true)
    ∧ (findChild e (qn "w:pPr") = none → gather_pPr e = some []) := by
  refine ⟨fun rPrE hfind h => ?_, fun h => by simp [gather_rPr, h],
    fun tcPrE hfind h => ?_, fun h => by simp [gather_tcPr, h],
    fun pPrE hfind h => ?_, fun h => by simp [gather_pPr, gather_pPr_run, h]⟩
  · rw [gather_rPr, hfind]
    exact gatherFold_isSome rPrE.children [] h
  · rw [gather_tcPr, hfind]
    exact gatherFold_isSome tcPrE.children [] h
  · rw [gather_pPr, gather_pPr_run, hfind]
    exact pFold_fst_isSome pPrE.children [] [] h

/-- Witness for C8 (amended) on a run whose `rPr` holds one well-formed
(namespaced) `b` child: collection returns a map. -/
theorem collector_totality_amended_witness :
    (gather_rPr
      (Elem.mk (qn "w:r") [] [Elem.mk (qn "w:rPr") [] [Elem.mk (qn "w:b") [] []]])).isSome
      = true := by
  have h := (collector_totality_amended
    (Elem.mk (qn "w:r") [] [Elem.mk (qn "w:rPr") [] [Elem.mk (qn "w:b") [] []]])).1
    (Elem.mk (qn "w:rPr") [] [Elem.mk (qn "w:b") [] []]) rfl
  exact h (by intro x hx; rw [List.mem_singleton.mp hx]; decide)

/-- C9: the collector `gather_pPr` is not free of I/O — its loop executes
`print(tag)` for every parsed child, so collecting a `pPr` with a `jc` child
writes the line `jc` to standard output (modelled by the explicit print
trace). -/
theorem gather_pPr_prints_to_stdout :
    gather_pPr_prints
        (Elem.mk (qn "w:p") []
          [Elem.mk (qn "w:pPr") [] [Elem.mk (qn "w:jc") [(qn "w:val", "center")] []]]) =
      ["jc"] := by decide

theorem mem_pyDictInsert (m : List (String × α)) (k : String) (v : α) (p : String × α)
    (h : p ∈ pyDictInsert m k v) : p = (k, v) ∨ p ∈ m := by
  by_cases hc : pyHasKey m k = true
  · simp only [pyDictInsert, hc, if_true, List.mem_map] at h
    obtain ⟨q, hq, hqp⟩ := h
    by_cases hqk : q.1 = k
    · rw [if_pos hqk] at hqp
      exact Or.inl hqp.symm
    · rw [if_neg hqk] at hqp
      exact Or.inr (hqp ▸ hq)
  · have hc' : pyHasKey m k = false := by simpa using hc
    simp only [pyDictInsert, hc', Bool.false_eq_true, if_false, List.mem_append,
      List.mem_singleton] at h
    rcases h with h | h
    · exact Or.inr h
    · exact Or.inl h

theorem pFold_wf : ∀ (l : List Elem) (m0 : List (String × PVal)) (pr0 : List String)
    (m' : List (String × PVal)) (pr' : List String),
    l.foldl pGatherStep (some m0, pr0) = (some m', pr') →
    (∀ p ∈ m0, (p.1 = "spacing" ∨ p.1 = "ind") → isSub p.2 = true) →
    ∀ p ∈ m', (p.1 = "spacing" ∨ p.1 = "ind") → isSub p.2 = true
  | [], m0, pr0, m', pr', hf, h0 => by
    rw [List.foldl_nil] at hf
    cases hf
    exact h0
  | x :: l, m0, pr0, m', pr', hf, h0 => by
    rw [List.foldl_cons] at hf
    cases ht : elem_tag_str x.tag with
    | none =>
      rw [show pGatherStep (some m0, pr0) x = (none, pr0) by simp [pGatherStep, ht],
        pFold_none] at hf
      cases hf
    | some t =>
      rw [show pGatherStep (some m0, pr0) x =
        (some (if t = "spacing" then pyDictInsert m0 t (PVal.sub (spacingSub x))
          else if t = "jc" then pyDictInsert m0 t (PVal.flat (attribGet x (qn "w:val")))
          else if t = "ind" then pyDictInsert m0 t (PVal.sub (indSub x))
          else m0), pr0 ++ [t]) by simp [pGatherStep, ht]] at hf
      refine pFold_wf l _ _ m' pr' hf ?_
      intro p hp hcond
      by_cases h1 : t = "spacing"
      · rw [if_pos h1] at hp
        rcases mem_pyDictInsert _ _ _ p hp with h | h
        · rw [h]
          rfl
        · exact h0 p h hcond
      · by_cases h2 : t = "jc"
        · rw [if_neg h1, if_pos h2] at hp
          rcases mem_pyDictInsert _ _ _ p hp with h | h
          · rw [h] at hcond
            rcases hcond with hcond | hcond <;> simp [h2] at hcond
          · exact h0 p h hcond
        · by_cases h4 : t = "ind"
          · rw [if_neg h1, if_neg h2, if_pos h4] at hp
            rcases mem_pyDictInsert _ _ _ p hp with h | h
            · rw [h]
              rfl
            · exact h0 p h hcond
          · rw [if_neg h1, if_neg h2, if_neg h4] at hp
            exact h0 p hp hcond

/-- Every dict `gather_pPr` actually returns stores sub-dicts under `spacing`
and `ind`: the well-formedness hypothesis of the paragraph ordering theorem
holds for every collected paragraph. -/
theorem gather_pPr_wf (e : Elem) (m : List (String × PVal)) (h : gather_pPr e = some m) :
    ∀ p ∈ m, (p.1 = "spacing" ∨ p.1 = "ind") → isSub p.2 = true := by
  rw [gather_pPr, gather_pPr_run] at h
  cases hf : findChild e (qn "w:pPr") with
  | none =>
    rw [hf] at h
    cases h
    intro p hp
    cases hp
  | some pPrE =>
    rw [hf] at h
    have hpair : pPrE.children.foldl pGatherStep (some [], []) =
        (some m, (pPrE.children.foldl pGatherStep (some [], [])).2) := by
      rw [← h]
    exact pFold_wf pPrE.children [] [] m _ hpair (fun p hp => by cases hp)

theorem insertLe_perm (le : α → α → Bool) (a : α) (l : List α) :
    (insertLe le a l).Perm (a :: l) := by
  induction l with
  | nil => exact List.Perm.refl _
  | cons b l ih =>
    by_cases h : le a b = true
    · simp [insertLe, h]
    · simp only [insertLe, h, if_false]
      exact (ih.cons b).trans (List.Perm.swap a b l)

theorem sortLe_perm (le : α → α → Bool) (l : List α) : (sortLe le l).Perm l := by
  induction l with
  | nil => exact List.Perm.refl _
  | cons a l ih => exact (insertLe_perm le a (sortLe le l)).trans (ih.cons a)

theorem sortItems_keys_nodup (m : List (String × α)) (h : (m.map Prod.fst).Nodup) :
    ((sortItems m).map Prod.fst).Nodup :=
  (((sortLe_perm _ m).map Prod.fst).nodup_iff).mpr h

theorem not_mem_keys_of_hasKey_false : ∀ (m : List (String × α)) (k : String),
    pyHasKey m k = false → ¬k ∈ m.map Prod.fst
  | [], _, _ => by simp
  | q :: m, k, h => by
    by_cases hq : q.1 = k
    · simp [pyHasKey, hq] at h
    · have hm : pyHasKey m k = false := by simpa [pyHasKey, hq] using h
      simp only [List.map_cons, List.mem_cons]
      rintro (h1 | h1)
      · exact hq h1.symm
      · exact not_mem_keys_of_hasKey_false m k hm h1

theorem keys_overwrite (m : List (String × α)) (k : String) (v : α) :
    ((m.map fun p => if p.1 = k then (k, v) else p).map Prod.fst) = m.map Prod.fst := by
  induction m with
  | nil => rfl
  | cons q m ih =>
    by_cases hq : q.1 = k
    · simp [hq, ih]
    · simp [hq, ih]

theorem keys_pyDictInsert_nodup (m : List (String × α)) (k : String) (v : α)
    (h : (m.map Prod.fst).Nodup) : ((pyDictInsert m k v).map Prod.fst).Nodup := by
  by_cases hc : pyHasKey m k = true
  · simp only [pyDictInsert, hc, if_true]
    rw [keys_overwrite]
    exact h
  · have hc' : pyHasKey m k = false := by simpa using hc
    simp only [pyDictInsert, hc', Bool.false_eq_true, if_false, List.map_append,
      List.map_cons, List.map_nil]
    rw [List.nodup_append]
    refine ⟨h, List.nodup_singleton k, ?_⟩
    rw [List.disjoint_singleton]
    exact not_mem_keys_of_hasKey_false m k hc'

theorem pyGet_mem : ∀ (m : List (String × α)) (t : String) (v : α),
    pyGet m t = some v → (t, v) ∈ m
  | [], t, v, h => by simp [pyGet] at h
  | q :: m, t, v, h => by
    by_cases hq : q.1 = t
    · simp only [pyGet, hq, if_pos rfl] at h
      have hv : v = q.2 := (Option.some.inj h).symm
      exact List.mem_cons.mpr (Or.inl (by rw [← hq, hv]))
    · simp only [pyGet, hq, if_false] at h
      exact List.mem_cons.mpr (Or.inr (pyGet_mem m t v h))

theorem flatMap_eq_nil_of (l : List α) (f : α → List β) (h : ∀ q ∈ l, f q = []) :
    l.flatMap f = [] := by
  induction l with
  | nil => rfl
  | cons q l ih =>
    simp [h q (List.mem_cons_self q l), ih (fun x hx => h x (List.mem_cons_of_mem q hx))]

theorem flatMap_single_key (f : (String × PVal) → List String) (K : String)
    (hf : ∀ q : String × PVal, ¬q.1 = K → f q = []) :
    ∀ (l : List (String × PVal)), ((l.map Prod.fst).Nodup) →
    ∀ p₀ ∈ l, p₀.1 = K → l.flatMap f = f p₀
  | [], _, p₀, hmem, _ => absurd hmem (List.not_mem_nil p₀)
  | p :: r, hnd, p₀, hmem, hK => by
    have hnd' : (r.map Prod.fst).Nodup := (List.nodup_cons.mp (by simpa using hnd)).2
    have hpnotin : ¬p.1 ∈ r.map Prod.fst := (List.nodup_cons.mp (by simpa using hnd)).1
    by_cases hp : p.1 = K
    · have hp₀ : p₀ = p := by
        rcases List.mem_cons.mp hmem with h | h
        · exact h
        · exact absurd
            (show p.1 ∈ r.map Prod.fst by
              rw [hp, ← hK]
              exact List.mem_map.mpr ⟨p₀, h, rfl⟩)
            hpnotin
      have hrest : r.flatMap f = [] :=
        flatMap_eq_nil_of r f (fun q hq =>
          hf q (fun hqK =>
            hpnotin (by
              rw [hp, ← hqK]
              exact List.mem_map.mpr ⟨q, hq, rfl⟩)))
      simp [hrest, hp₀]
    · have hp₀r : p₀ ∈ r := by
        rcases List.mem_cons.mp hmem with h | h
        · exact absurd (h ▸ hK) hp
        · exact h
      simp [hf p hp, flatMap_single_key f K hf r hnd' p₀ hp₀r hK]

theorem pFold_keys_nodup : ∀ (l : List Elem) (m0 : List (String × PVal)) (pr0 : List String)
    (m' : List (String × PVal)) (pr' : List String),
    l.foldl pGatherStep (some m0, pr0) = (some m', pr') →
    (m0.map Prod.fst).Nodup → (m'.map Prod.fst).Nodup
  | [], m0, pr0, m', pr', hf, h0 => by
    rw [List.foldl_nil] at hf
    cases hf
    exact h0
  | x :: l, m0, pr0, m', pr', hf, h0 => by
    rw [List.foldl_cons] at hf
    cases ht : elem_tag_str x.tag with
    | none =>
      rw [show pGatherStep (some m0, pr0) x = (none, pr0) by simp [pGatherStep, ht],
        pFold_none] at hf
      cases hf
    | some t =>
      rw [show pGatherStep (some m0, pr0) x =
        (some (if t = "spacing" then pyDictInsert m0 t (PVal.sub (spacingSub x))
          else if t = "jc" then pyDictInsert m0 t (PVal.flat (attribGet x (qn "w:val")))
          else if t = "ind" then pyDictInsert m0 t (PVal.sub (indSub x))
          else m0), pr0 ++ [t]) by simp [pGatherStep, ht]] at hf
      refine pFold_keys_nodup l _ _ m' pr' hf ?_
      by_cases h1 : t = "spacing"
      · rw [if_pos h1]
        exact keys_pyDictInsert_nodup m0 t _ h0
      · by_cases h2 : t = "jc"
        · rw [if_neg h1, if_pos h2]
          exact keys_pyDictInsert_nodup m0 t _ h0
        · by_cases h4 : t = "ind"
          · rw [if_neg h1, if_neg h2, if_pos h4]
            exact keys_pyDictInsert_nodup m0 t _ h0
          · rw [if_neg h1, if_neg h2, if_neg h4]
            exact h0

/-- The keys of every dict `gather_pPr` returns are pairwise distinct, as for
any Python dict. -/
theorem gather_pPr_keys_nodup (e : Elem) (m : List (String × PVal))
    (h : gather_pPr e = some m) : (m.map Prod.fst).Nodup := by
  rw [gather_pPr, gather_pPr_run] at h
  cases hf : findChild e (qn "w:pPr") with
  | none =>
    rw [hf] at h
    cases h
    exact List.nodup_nil
  | some pPrE =>
    rw [hf] at h
    have hpair : pPrE.children.foldl pGatherStep (some [], []) =
        (some m, (pPrE.children.foldl pGatherStep (some [], [])).2) := by
      rw [← h]
    exact pFold_keys_nodup pPrE.children [] [] m _ hpair List.nodup_nil

/-- The value `gather_pPr` stores for a child whose local tag is `t`: the
fixed sub-dict for `spacing` and `ind`, the flat `w:val` for `jc`, nothing for
any other tag. -/
def pStoredVal (x : Elem) (t : String) : Option PVal :=
  if t = "spacing" then some (PVal.sub (spacingSub x))
  else if t = "jc" then some (PVal.flat (attribGet x (qn "w:val")))
  else if t = "ind" then some (PVal.sub (indSub x))
  else none

/-- The value the `gather_pPr` dict ends up holding at key `t`: the stored
value of the LAST child whose local tag is `t` (none when no child bears the
tag or the tag is not special-cased) — repeated dict insertion keeps the last
same-tagged child. -/
def pLastStored : List Elem → String → Option PVal
  | [], _ => none
  | x :: r, t =>
    match pLastStored r t with
    | some v => some v
    | none => if elem_tag_str x.tag = some t then pStoredVal x t else none

theorem pLastStored_spec : ∀ (l : List Elem) (t : String) (v : PVal),
    pLastStored l t = some v →
    ∃ z, z ∈ l ∧ elem_tag_str z.tag = some t ∧ pStoredVal z t = some v
  | [], t, v, h => by simp [pLastStored] at h
  | x :: r, t, v, h => by
    cases hrest : pLastStored r t with
    | some w =>
      simp only [pLastStored, hrest] at h
      obtain ⟨z, hz, hzt, hzv⟩ := pLastStored_spec r t v (hrest.trans h)
      exact ⟨z, List.mem_cons_of_mem x hz, hzt, hzv⟩
    | none =>
      simp only [pLastStored, hrest] at h
      by_cases hx : elem_tag_str x.tag = some t
      · rw [if_pos hx] at h
        exact ⟨x, List.mem_cons_self x r, hx, h⟩
      · rw [if_neg hx] at h
        cases h

theorem pLastStored_isSome_of_mem : ∀ (l : List Elem) (t : String) (x : Elem),
    x ∈ l → elem_tag_str x.tag = some t →
    (∀ z : Elem, (pStoredVal z t).isSome = true) →
    (pLastStored l t).isSome = true
  | [], _, x, hx, _, _ => absurd hx (List.not_mem_nil x)
  | y :: r, t, x, hx, ht, hsv => by
    cases hrest : pLastStored r t with
    | some w => simp [pLastStored, hrest]
    | none =>
      rcases List.mem_cons.mp hx with hxy | hxr
      · subst hxy
        simp only [pLastStored, hrest, ht, if_pos rfl]
        exact hsv x
      · have := pLastStored_isSome_of_mem r t x hxr ht hsv
        rw [hrest] at this
        cases this

theorem pFold_get_last : ∀ (l : List Elem) (m0 : List (String × PVal)) (pr0 : List String)
    (m' : List (String × PVal)) (pr' : List String),
    l.foldl pGatherStep (some m0, pr0) = (some m', pr') →
    ∀ t, pyGet m' t =
      match pLastStored l t with
      | some v => some v
      | none => pyGet m0 t
  | [], m0, pr0, m', pr', hf, t => by
    rw [List.foldl_nil] at hf
    cases hf
    rfl
  | x :: l, m0, pr0, m', pr', hf, t => by
    rw [List.foldl_cons] at hf
    cases ht : elem_tag_str x.tag with
    | none =>
      rw [show pGatherStep (some m0, pr0) x = (none, pr0) by simp [pGatherStep, ht],
        pFold_none] at hf
      cases hf
    | some tx =>
      rw [show pGatherStep (some m0, pr0) x =
        (some (if tx = "spacing" then pyDictInsert m0 tx (PVal.sub (spacingSub x))
          else if tx = "jc" then pyDictInsert m0 tx (PVal.flat (attribGet x (qn "w:val")))
          else if tx = "ind" then pyDictInsert m0 tx (PVal.sub (indSub x))
          else m0), pr0 ++ [tx]) by simp [pGatherStep, ht]] at hf
      have ih := pFold_get_last l _ _ m' pr' hf t
      cases hrest : pLastStored l t with
      | some v =>
        rw [hrest] at ih
        simp only [pLastStored, hrest]
        exact ih
      | none =>
        rw [hrest] at ih
        have ih' : pyGet m' t =
            pyGet (if tx = "spacing" then pyDictInsert m0 tx (PVal.sub (spacingSub x))
              else if tx = "jc" then pyDictInsert m0 tx (PVal.flat (attribGet x (qn "w:val")))
              else if tx = "ind" then pyDictInsert m0 tx (PVal.sub (indSub x))
              else m0) t := ih
        simp only [pLastStored, hrest, ht]
        by_cases het : tx = t
        · subst het
          rw [if_pos rfl, ih']
          show pyGet
            (if tx = "spacing" then pyDictInsert m0 tx (PVal.sub (spacingSub x))
             else if tx = "jc" then pyDictInsert m0 tx (PVal.flat (attribGet x (qn "w:val")))
             else if tx = "ind" then pyDictInsert m0 tx (PVal.sub (indSub x))
             else m0) tx =
            match pStoredVal x tx with
            | some v => some v
            | none => pyGet m0 tx
          by_cases h1 : tx = "spacing"
          · rw [if_pos h1, show pStoredVal x tx = some (PVal.sub (spacingSub x)) by
              rw [pStoredVal, if_pos h1]]
            exact pyDictInsert_get_self m0 tx _
          · by_cases h2 : tx = "jc"
            · rw [if_neg h1, if_pos h2,
                show pStoredVal x tx = some (PVal.flat (attribGet x (qn "w:val"))) by
                  rw [pStoredVal, if_neg h1, if_pos h2]]
              exact pyDictInsert_get_self m0 tx _
            · by_cases h4 : tx = "ind"
              · rw [if_neg h1, if_neg h2, if_pos h4,
                  show pStoredVal x tx = some (PVal.sub (indSub x)) by
                    rw [pStoredVal, if_neg h1, if_neg h2, if_pos h4]]
                exact pyDictInsert_get_self m0 tx _
              · have hsv : pStoredVal x tx = none := by
                  rw [pStoredVal, if_neg h1, if_neg h2, if_neg h4]
                rw [if_neg h1, if_neg h2, if_neg h4, hsv]
        · rw [if_neg (fun e => het (Option.some.inj e))]
          show pyGet m' t = pyGet m0 t
          rw [ih']
          have hne : ¬t = tx := fun e => het e.symm
          by_cases h1 : tx = "spacing"
          · rw [if_pos h1]
            exact pyDictInsert_get_ne m0 tx t _ hne
          · by_cases h2 : tx = "jc"
            · rw [if_neg h1, if_pos h2]
              exact pyDictInsert_get_ne m0 tx t _ hne
            · by_cases h4 : tx = "ind"
              · rw [if_neg h1, if_neg h2, if_pos h4]
                exact pyDictInsert_get_ne m0 tx t _ hne
              · rw [if_neg h1, if_neg h2, if_neg h4]

theorem paragraph_spacing_entry (e pPrE : Elem) (m : List (String × PVal))
    (s : List (String × String)) (x : Elem)
    (h1 : findChild e (qn "w:pPr") = some pPrE)
    (hm : gather_pPr e = some m)
    (hs : get_paragraph_style e = some s)
    (hx : x ∈ pPrE.children) (hxt : elem_tag_str x.tag = some "spacing") :
    ∃ z, z ∈ pPrE.children ∧ elem_tag_str z.tag = some "spacing"
      ∧ pyGet m "spacing" = some (PVal.sub (spacingSub z))
      ∧ ("spacing", String.intercalate " "
          [tok "after" (attribGet z (qn "w:after")),
           tok "afterAutospacing" (attribGet z (qn "w:afterAutospacing")),
           tok "before" (attribGet z (qn "w:before")),
           tok "beforeAutospacing" (attribGet z (qn "w:beforeAutospacing")),
           tok "line" (attribGet z (qn "w:line")),
           tok "lineRule" (attribGet z (qn "w:lineRule"))]) ∈ s := by
  have hwf := gather_pPr_wf e m hm
  have hnd := gather_pPr_keys_nodup e m hm
  have hmr := hm
  rw [gather_pPr, gather_pPr_run, h1] at hmr
  have hpair : pPrE.children.foldl pGatherStep (some [], []) =
      (some m, (pPrE.children.foldl pGatherStep (some [], [])).2) := by
    rw [← hmr]
  have hget0 := pFold_get_last pPrE.children [] [] m _ hpair "spacing"
  have hsome := pLastStored_isSome_of_mem pPrE.children "spacing" x hx hxt (fun z => rfl)
  obtain ⟨v, hv⟩ := Option.isSome_iff_exists.mp hsome
  obtain ⟨z, hz, hzt, hzv⟩ := pLastStored_spec pPrE.children "spacing" v hv
  have hvz : v = PVal.sub (spacingSub z) := by
    have hr : pStoredVal z "spacing" = some (PVal.sub (spacingSub z)) := rfl
    rw [hr] at hzv
    exact (Option.some.inj hzv).symm
  have hget : pyGet m "spacing" = some (PVal.sub (spacingSub z)) := by
    rw [← hvz]
    rw [hget0, hv]
  have hsel : select_paragraph_style m = some s := by
    rw [get_paragraph_style, hm] at hs
    simpa using hs
  have hwfs : ∀ p ∈ sortItems m, (p.1 = "spacing" ∨ p.1 = "ind") → isSub p.2 = true :=
    fun p hp => hwf p ((mem_sortItems m p).mp hp)
  have hfold := p_foldl (sortItems m) [] [] [] hwfs
  rw [select_paragraph_style, hfold] at hsel
  have hndS := sortItems_keys_nodup m hnd
  have hmemS : ("spacing", PVal.sub (spacingSub z)) ∈ sortItems m :=
    (mem_sortItems m _).mpr (pyGet_mem m "spacing" _ hget)
  have htoks : (sortItems m).flatMap spacingToksOf =
      (spacingSub z).map (fun q => tok q.1 q.2) := by
    have h0 := flatMap_single_key spacingToksOf "spacing"
      (fun q hq => by simp [spacingToksOf, hq]) (sortItems m) hndS
      ("spacing", PVal.sub (spacingSub z)) hmemS rfl
    rw [h0]
    rfl
  have hne : ¬(sortItems m).flatMap spacingToksOf = [] := by
    rw [htoks]
    simp [spacingSub]
  have hs2 : (if (sortItems m).flatMap spacingToksOf = [] then
        (if (sortItems m).flatMap indToksOf = [] then (sortItems m).filterMap jcEntryOf
         else ("indentation", String.intercalate " "
            (sortLe strLe ((sortItems m).flatMap indToksOf))) ::
              (sortItems m).filterMap jcEntryOf)
      else ("spacing", String.intercalate " "
          (sortLe strLe ((sortItems m).flatMap spacingToksOf))) ::
        (if (sortItems m).flatMap indToksOf = [] then (sortItems m).filterMap jcEntryOf
         else ("indentation", String.intercalate " "
            (sortLe strLe ((sortItems m).flatMap indToksOf))) ::
              (sortItems m).filterMap jcEntryOf)) = s := Option.some.inj hsel
  rw [if_neg hne] at hs2
  refine ⟨z, hz, hzt, hget, ?_⟩
  rw [← hs2, htoks]
  exact List.mem_cons_self _ _

theorem paragraph_ind_entry (e pPrE : Elem) (m : List (String × PVal))
    (s : List (String × String)) (x : Elem)
    (h1 : findChild e (qn "w:pPr") = some pPrE)
    (hm : gather_pPr e = some m)
    (hs : get_paragraph_style e = some s)
    (hx : x ∈ pPrE.children) (hxt : elem_tag_str x.tag = some "ind") :
    ∃ z, z ∈ pPrE.children ∧ elem_tag_str z.tag = some "ind"
      ∧ pyGet m "ind" = some (PVal.sub (indSub z))
      ∧ ("indentation", String.intercalate " "
          [tok "firstLine" (attribGet z (qn "w:firstLine")),
           tok "hanging" (attribGet z (qn "w:hanging")),
           tok "left" (attribGet z (qn "w:left")),
           tok "right" (attribGet z (qn "w:right"))]) ∈ s := by
  have hwf := gather_pPr_wf e m hm
  have hnd := gather_pPr_keys_nodup e m hm
  have hmr := hm
  rw [gather_pPr, gather_pPr_run, h1] at hmr
  have hpair : pPrE.children.foldl pGatherStep (some [], []) =
      (some m, (pPrE.children.foldl pGatherStep (some [], [])).2) := by
    rw [← hmr]
  have hget0 := pFold_get_last pPrE.children [] [] m _ hpair "ind"
  have hsome := pLastStored_isSome_of_mem pPrE.children "ind" x hx hxt (fun z => rfl)
  obtain ⟨v, hv⟩ := Option.isSome_iff_exists.mp hsome
  obtain ⟨z, hz, hzt, hzv⟩ := pLastStored_spec pPrE.children "ind" v hv
  have hvz : v = PVal.sub (indSub z) := by
    have hr : pStoredVal z "ind" = some (PVal.sub (indSub z)) := rfl
    rw [hr] at hzv
    exact (Option.some.inj hzv).symm
  have hget : pyGet m "ind" = some (PVal.sub (indSub z)) := by
    rw [← hvz]
    rw [hget0, hv]
  have hsel : select_paragraph_style m = some s := by
    rw [get_paragraph_style, hm] at hs
    simpa using hs
  have hwfs : ∀ p ∈ sortItems m, (p.1 = "spacing" ∨ p.1 = "ind") → isSub p.2 = true :=
    fun p hp => hwf p ((mem_sortItems m p).mp hp)
  have hfold := p_foldl (sortItems m) [] [] [] hwfs
  rw [select_paragraph_style, hfold] at hsel
  have hndS := sortItems_keys_nodup m hnd
  have hmemS : ("ind", PVal.sub (indSub z)) ∈ sortItems m :=
    (mem_sortItems m _).mpr (pyGet_mem m "ind" _ hget)
  have htoks : (sortItems m).flatMap indToksOf =
      (indSub z).map (fun q => tok q.1 q.2) := by
    have h0 := flatMap_single_key indToksOf "ind"
      (fun q hq => by simp [indToksOf, hq]) (sortItems m) hndS
      ("ind", PVal.sub (indSub z)) hmemS rfl
    rw [h0]
    rfl
  have hne : ¬(sortItems m).flatMap indToksOf = [] := by
    rw [htoks]
    simp [indSub]
  have hs2 : (if (sortItems m).flatMap spacingToksOf = [] then
        (if (sortItems m).flatMap indToksOf = [] then (sortItems m).filterMap jcEntryOf
         else ("indentation", String.intercalate " "
            (sortLe strLe ((sortItems m).flatMap indToksOf))) ::
              (sortItems m).filterMap jcEntryOf)
      else ("spacing", String.intercalate " "
          (sortLe strLe ((sortItems m).flatMap spacingToksOf))) ::
        (if (sortItems m).flatMap indToksOf = [] then (sortItems m).filterMap jcEntryOf
         else ("indentation", String.intercalate " "
            (sortLe strLe ((sortItems m).flatMap indToksOf))) ::
              (sortItems m).filterMap jcEntryOf)) = s := Option.some.inj hsel
  refine ⟨z, hz, hzt, hget, ?_⟩
  by_cases hsp : (sortItems m).flatMap spacingToksOf = []
  · rw [if_pos hsp, if_neg hne] at hs2
    rw [← hs2, htoks]
    exact List.mem_cons_self _ _
  · rw [if_neg hsp, if_neg hne] at hs2
    rw [← hs2, htoks]
    exact List.mem_cons_of_mem _ (List.mem_cons_self _ _)

/-- C10: in every paragraph whose properties node holds a `spacing` or `ind`
child — whatever else it holds — the selection output contains the rendered
entry for that child's sub-dict carrying ALL six (respectively four) sub-key
tokens, and a sub-attribute absent from the XML node still appears as a token
whose value is the literal string `None` (`tok k none` is `k="None"`): null
sub-values are never omitted from the space-joined token list. -/
theorem null_subvalues_render_as_None (e pPrE : Elem) (m : List (String × PVal))
    (s : List (String × String)) (x : Elem)
    (h1 : findChild e (qn "w:pPr") = some pPrE)
    (hm : gather_pPr e = some m)
    (hs : get_paragraph_style e = some s)
    (hx : x ∈ pPrE.children) :
    (x.tag = qn "w:spacing" →
      ∃ z, z ∈ pPrE.children ∧ elem_tag_str z.tag = some "spacing"
        ∧ ("spacing", String.intercalate " "
            [tok "after" (attribGet z (qn "w:after")),
             tok "afterAutospacing" (attribGet z (qn "w:afterAutospacing")),
             tok "before" (attribGet z (qn "w:before")),
             tok "beforeAutospacing" (attribGet z (qn "w:beforeAutospacing")),
             tok "line" (attribGet z (qn "w:line")),
             tok "lineRule" (attribGet z (qn "w:lineRule"))]) ∈ s
        ∧ [tok "after" (attribGet z (qn "w:after")),
           tok "afterAutospacing" (attribGet z (qn "w:afterAutospacing")),
           tok "before" (attribGet z (qn "w:before")),
           tok "beforeAutospacing" (attribGet z (qn "w:beforeAutospacing")),
           tok "line" (attribGet z (qn "w:line")),
           tok "lineRule" (attribGet z (qn "w:lineRule"))].length = 6)
    ∧ (x.tag = qn "w:ind" →
      ∃ z, z ∈ pPrE.children ∧ elem_tag_str z.tag = some "ind"
        ∧ ("indentation", String.intercalate " "
            [tok "firstLine" (attribGet z (qn "w:firstLine")),
             tok "hanging" (attribGet z (qn "w:hanging")),
             tok "left" (attribGet z (qn "w:left")),
             tok "right" (attribGet z (qn "w:right"))]) ∈ s
        ∧ [tok "firstLine" (attribGet z (qn "w:firstLine")),
           tok "hanging" (attribGet z (qn "w:hanging")),
           tok "left" (attribGet z (qn "w:left")),
           tok "right" (attribGet z (qn "w:right"))].length = 4)
    ∧ (∀ k : String, tok k none = k ++ "=\"" ++ "None" ++ "\"") := by
  refine ⟨fun hxt => ?_, fun hxt => ?_, fun k => rfl⟩
  · obtain ⟨z, hz, hzt, _, hmem⟩ :=
      paragraph_spacing_entry e pPrE m s x h1 hm hs hx (by rw [hxt]; decide)
    exact ⟨z, hz, hzt, hmem, rfl⟩
  · obtain ⟨z, hz, hzt, _, hmem⟩ :=
      paragraph_ind_entry e pPrE m s x h1 hm hs hx (by rw [hxt]; decide)
    exact ⟨z, hz, hzt, hmem, rfl⟩

/-- Witness for C10 on a paragraph holding a `spacing` child with only
`w:line="240"` and an attribute-less `ind` child: both rendered entries are in
the output with every missing sub-value rendered as the literal `None`. -/
theorem null_subvalues_render_as_None_witness :
    (∃ z, z ∈ (Elem.mk (qn "w:pPr") []
        [Elem.mk (qn "w:spacing") [(qn "w:line", "240")] [],
         Elem.mk (qn "w:ind") [] []]).children
      ∧ elem_tag_str z.tag = some "spacing"
      ∧ ("spacing", String.intercalate " "
          [tok "after" (attribGet z (qn "w:after")),
           tok "afterAutospacing" (attribGet z (qn "w:afterAutospacing")),
           tok "before" (attribGet z (qn "w:before")),
           tok "beforeAutospacing" (attribGet z (qn "w:beforeAutospacing")),
           tok "line" (attribGet z (qn "w:line")),
           tok "lineRule" (attribGet z (qn "w:lineRule"))]) ∈
        [("spacing",
          "after=\"None\" afterAutospacing=\"None\" before=\"None\" beforeAutospacing=\"None\" line=\"240\" lineRule=\"None\""),
         ("indentation", "firstLine=\"None\" hanging=\"None\" left=\"None\" right=\"None\"")]
      ∧ [tok "after" (attribGet z (qn "w:after")),
         tok "afterAutospacing" (attribGet z (qn "w:afterAutospacing")),
         tok "before" (attribGet z (qn "w:before")),
         tok "beforeAutospacing" (attribGet z (qn "w:beforeAutospacing")),
         tok "line" (attribGet z (qn "w:line")),
         tok "lineRule" (attribGet z (qn "w:lineRule"))].length = 6)
    ∧ (∃ z, z ∈ (Elem.mk (qn "w:pPr") []
        [Elem.mk (qn "w:spacing") [(qn "w:line", "240")] [],
         Elem.mk (qn "w:ind") [] []]).children
      ∧ elem_tag_str z.tag = some "ind"
      ∧ ("indentation", String.intercalate " "
          [tok "firstLine" (attribGet z (qn "w:firstLine")),
           tok "hanging" (attribGet z (qn "w:hanging")),
           tok "left" (attribGet z (qn "w:left")),
           tok "right" (attribGet z (qn "w:right"))]) ∈
        [("spacing",
          "after=\"None\" afterAutospacing=\"None\" before=\"None\" beforeAutospacing=\"None\" line=\"240\" lineRule=\"None\""),
         ("indentation", "firstLine=\"None\" hanging=\"None\" left=\"None\" right=\"None\"")]
      ∧ [tok "firstLine" (attribGet z (qn "w:firstLine")),
         tok "hanging" (attribGet z (qn "w:hanging")),
         tok "left" (attribGet z (qn "w:left")),
         tok "right" (attribGet z (qn "w:right"))].length = 4)
    ∧ (∀ k : String, tok k none = k ++ "=\"" ++ "None" ++ "\"") := by
  refine ⟨?_, ?_, ?_⟩
  · exact (null_subvalues_render_as_None
      (Elem.mk (qn "w:p") []
        [Elem.mk (qn "w:pPr") []
          [Elem.mk (qn "w:spacing") [(qn "w:line", "240")] [],
           Elem.mk (qn "w:ind") [] []]])
      (Elem.mk (qn "w:pPr") []
        [Elem.mk (qn "w:spacing") [(qn "w:line", "240")] [],
         Elem.mk (qn "w:ind") [] []])
      [("spacing", PVal.sub
         [("before", none), ("after", none), ("line", some "240"),
          ("lineRule", none), ("beforeAutospacing", none),
          ("afterAutospacing", none)]),
       ("ind", PVal.sub
         [("left", none), ("right", none), ("hanging", none),
          ("firstLine", none)])]
      [("spacing",
         "after=\"None\" afterAutospacing=\"None\" before=\"None\" beforeAutospacing=\"None\" line=\"240\" lineRule=\"None\""),
       ("indentation", "firstLine=\"None\" hanging=\"None\" left=\"None\" right=\"None\"")]
      (Elem.mk (qn "w:spacing") [(qn "w:line", "240")] [])
      rfl (by decide) (by decide) (List.mem_cons_self _ _)).1 rfl
  · exact (null_subvalues_render_as_None
      (Elem.mk (qn "w:p") []
        [Elem.mk (qn "w:pPr") []
          [Elem.mk (qn "w:spacing") [(qn "w:line", "240")] [],
           Elem.mk (qn "w:ind") [] []]])
      (Elem.mk (qn "w:pPr") []
        [Elem.mk (qn "w:spacing") [(qn "w:line", "240")] [],
         Elem.mk (qn "w:ind") [] []])
      [("spacing", PVal.sub
         [("before", none), ("after", none), ("line", some "240"),
          ("lineRule", none), ("beforeAutospacing", none),
          ("afterAutospacing", none)]),
       ("ind", PVal.sub
         [("left", none), ("right", none), ("hanging", none),
          ("firstLine", none)])]
      [("spacing",
         "after=\"None\" afterAutospacing=\"None\" before=\"None\" beforeAutospacing=\"None\" line=\"240\" lineRule=\"None\""),
       ("indentation", "firstLine=\"None\" hanging=\"None\" left=\"None\" right=\"None\"")]
      (Elem.mk (qn "w:ind") [] [])
      rfl (by decide) (by decide)
      (List.mem_cons_of_mem _ (List.mem_cons_self _ _))).2.1 rfl
  · exact (null_subvalues_render_as_None
      (Elem.mk (qn "w:p") []
        [Elem.mk (qn "w:pPr") []
          [Elem.mk (qn "w:spacing") [(qn "w:line", "240")] [],
           Elem.mk (qn "w:ind") [] []]])
      (Elem.mk (qn "w:pPr") []
        [Elem.mk (qn "w:spacing") [(qn "w:line", "240")] [],
         Elem.mk (qn "w:ind") [] []])
      [("spacing", PVal.sub
         [("before", none), ("after", none), ("line", some "240"),
          ("lineRule", none), ("beforeAutospacing", none),
          ("afterAutospacing", none)]),
       ("ind", PVal.sub
         [("left", none), ("right", none), ("hanging", none),
          ("firstLine", none)])]
      [("spacing",
         "after=\"None\" afterAutospacing=\"None\" before=\"None\" beforeAutospacing=\"None\" line=\"240\" lineRule=\"None\""),
       ("indentation", "firstLine=\"None\" hanging=\"None\" left=\"None\" right=\"None\"")]
      (Elem.mk (qn "w:ind") [] [])
      rfl (by decide) (by decide)
      (List.mem_cons_of_mem _ (List.mem_cons_self _ _))).2.2
